import Mathlib

/-!
Verification development for the Email-assistant repository.

The file embeds the two core components of the repository in Lean:

* the document store (`src/database/email_db.py`, class `EmailDatabase`):
  an in-memory list of email records with JSON-file persistence, offering
  `store_email`, `mark_email_processed` and four read queries;

* the MIME decomposer (`src/email/gmail_reader.py`, class `GmailReader`):
  recursive body extraction over a nested payload tree (`_extract_body`,
  `_extract_from_parts`), attachment collection (`_extract_attachments`)
  and sender-header parsing (`_extract_email_address`,
  `_extract_sender_name`).

Modelling conventions:

* Python dicts holding email records become the structure `Email`.  Records
  reach the store only through `store_email`, whose input dict is produced by
  `_process_message` and therefore never carries the store-assigned keys
  `db_id`, `created_at`, `processed`, `ai_analysis`, `processed_at`; that
  input shape is the structure `EmailInput`.
* `uuid.uuid4()` and `datetime.utcnow().isoformat()` are nondeterministic at
  the Python level; they are passed to the embedded functions as explicit
  string arguments (`freshId`, `now`).
* Python string comparison (used by `sort` on `created_at` keys) is
  lexicographic on code points; it is embedded as `lexLe` / `strLe`.
* Python `list.sort` / `sorted` are stable; they are embedded with
  `List.mergeSort`, which is stable.
* `base64.urlsafe_b64decode(...).decode("utf-8")` is embedded as an explicit
  decoding function `dec : String → Option String`; `none` models a raised
  exception.  Note that real decoding can succeed with an empty result on
  truthy input (for example `urlsafe_b64decode("====")` and
  `urlsafe_b64decode("\n")` both return the empty byte string).
* The regular expression used by `_extract_email_address`, together with
  CPython search semantics (leftmost start, greedy quantifiers with
  backtracking), is embedded as an executable matcher; character classes and
  the word-boundary test are the ASCII readings of the pattern, so theorems
  about it carry an all-ASCII hypothesis.
-/

namespace EmailAssistant

/-! ## Pythonic string comparison (code-point lexicographic order) -/

/-- Lexicographic comparison of character lists by code point, matching the
order Python uses when comparing `str` values with `<` / `<=`. -/
def lexLe : List Char → List Char → Bool
  | [], _ => true
  | _ :: _, [] => false
  | a :: as, b :: bs =>
      if a.toNat < b.toNat then true
      else if a.toNat = b.toNat then lexLe as bs
      else false

/-- Python string `<=` on `String`. -/
def strLe (a b : String) : Bool := lexLe a.data b.data

/-! ## Document store: data model -/

/-- A stored email record: the dict shape kept in `EmailDatabase.emails`.
`processed_at = none` models the dict lacking the `processed_at` key (or
holding JSON null); `ai_analysis` is the opaque analysis payload, serialized
here as a string. -/
structure Email where
  id : String
  thread_id : String
  subject : String
  sender_email : String
  db_id : String
  created_at : String
  processed : Bool
  ai_analysis : Option String
  processed_at : Option String
deriving DecidableEq

/-- The insert-path input record: the dict built by
`GmailReader._process_message` and passed to `EmailDatabase.store_email`.
It never carries the store-assigned keys (`db_id`, `created_at`,
`processed`, `ai_analysis`, `processed_at`). -/
structure EmailInput where
  id : String
  thread_id : String
  subject : String
  sender_email : String
deriving DecidableEq

/-- The record appended by `store_email` on first sight of an id:
input fields plus the store-assigned fields. -/
def newEmail (r : EmailInput) (db_id created_at : String) : Email :=
  { id := r.id
    thread_id := r.thread_id
    subject := r.subject
    sender_email := r.sender_email
    db_id := db_id
    created_at := created_at
    processed := false
    ai_analysis := none
    processed_at := none }

/-! ## Document store: operations -/

/-- `EmailDatabase.store_email`.  `freshId` stands for `str(uuid.uuid4())`
and `now` for `datetime.utcnow().isoformat()`.  Returns the surrogate key
and the new collection. -/
def store_email (freshId now : String) (st : List Email) (r : EmailInput) :
    String × List Email :=
  match st.find? (fun e => e.id == r.id) with
  | some existing => (existing.db_id, st)
  | none => (freshId, st ++ [newEmail r freshId now])

/-- The three field writes `mark_email_processed` performs on the matching
record. -/
def markUpdate (now analysis : String) (e : Email) : Email :=
  { e with
      processed := true
      ai_analysis := some analysis
      processed_at := some now }

/-- Loop body of `EmailDatabase.mark_email_processed`: walk the collection,
update the first record whose `id` matches and stop; `none` when no record
matches. -/
def markAux (now analysis email_id : String) : List Email → Option (List Email)
  | [] => none
  | e :: rest =>
      if e.id == email_id then
        some (markUpdate now analysis e :: rest)
      else
        (markAux now analysis email_id rest).map (fun l => e :: l)

/-- `EmailDatabase.mark_email_processed`: returns the success flag and the
new collection. -/
def mark_email_processed (now : String) (st : List Email)
    (email_id analysis : String) : Bool × List Email :=
  match markAux now analysis email_id st with
  | some st' => (true, st')
  | none => (false, st)

/-- Sort order used with `reverse=True` on the `created_at` key: a stable
sort with this relation is exactly Python `sort(key=..., reverse=True)`. -/
def createdDesc (a b : Email) : Bool := strLe b.created_at a.created_at

/-- Ascending sort order on the `created_at` key. -/
def createdAsc (a b : Email) : Bool := strLe a.created_at b.created_at

/-- `EmailDatabase.get_unprocessed_emails`. -/
def get_unprocessed_emails (st : List Email) (limit : Nat) : List Email :=
  ((st.filter (fun e => !e.processed)).mergeSort createdDesc).take limit

/-- `EmailDatabase.get_recent_emails`. -/
def get_recent_emails (st : List Email) (limit : Nat) : List Email :=
  (st.mergeSort createdDesc).take limit

/-- `EmailDatabase.get_conversation_history`. -/
def get_conversation_history (st : List Email) (thread_id : String) :
    List Email :=
  (st.filter (fun e => e.thread_id == thread_id)).mergeSort createdAsc

/-- Result shape of `EmailDatabase.get_database_stats`. -/
structure DbStats where
  total_emails : Nat
  processed_emails : Nat
  unprocessed_emails : Nat
  unique_senders : Nat
  oldest_email_date : String
  newest_email_date : String
deriving DecidableEq

/-- `EmailDatabase.get_database_stats`. -/
def get_database_stats (st : List Email) : DbStats :=
  let total := st.length
  let processedCount := (st.filter (fun e => e.processed)).length
  let senders :=
    ((st.filter (fun e => e.sender_email != "")).map
      (fun e => e.sender_email)).dedup.length
  let dates :=
    ((st.filter (fun e => e.created_at != "")).map
      (fun e => e.created_at)).mergeSort strLe
  { total_emails := total
    processed_emails := processedCount
    unprocessed_emails := total - processedCount
    unique_senders := senders
    oldest_email_date := dates.headD "N/A"
    newest_email_date := dates.getLastD "N/A" }

/-! ## Document store: operation language and reachability -/

/-- One call on the store: the two mutators and the four read queries. -/
inductive DbOp where
  | store (freshId now : String) (r : EmailInput)
  | mark (now email_id analysis : String)
  | unproc (limit : Nat)
  | recent (limit : Nat)
  | thread (thread_id : String)
  | stats
deriving DecidableEq

/-- The collection (`self.emails`) after a call.  The four query methods
build local lists only and never assign to `self.emails`, so their state
component is the incoming collection. -/
def runState : DbOp → List Email → List Email
  | DbOp.store f n r, st => (store_email f n st r).2
  | DbOp.mark n i a, st => (mark_email_processed n st i a).2
  | DbOp.unproc _, st => st
  | DbOp.recent _, st => st
  | DbOp.thread _, st => st
  | DbOp.stats, st => st

/-- Return value of a call, as one sum type. -/
inductive DbOut where
  | key (k : String)
  | ok (b : Bool)
  | emails (l : List Email)
  | stats (s : DbStats)
deriving DecidableEq

/-- The value returned by a call. -/
def runOut : DbOp → List Email → DbOut
  | DbOp.store f n r, st => DbOut.key (store_email f n st r).1
  | DbOp.mark n i a, st => DbOut.ok (mark_email_processed n st i a).1
  | DbOp.unproc l, st => DbOut.emails (get_unprocessed_emails st l)
  | DbOp.recent l, st => DbOut.emails (get_recent_emails st l)
  | DbOp.thread t, st => DbOut.emails (get_conversation_history st t)
  | DbOp.stats, st => DbOut.stats (get_database_stats st)

/-- Whether a call is one of the four read queries. -/
def isQuery : DbOp → Bool
  | DbOp.store _ _ _ => false
  | DbOp.mark _ _ _ => false
  | _ => true

/-- The collection after a sequence of calls. -/
def runOps (ops : List DbOp) (st : List Email) : List Email :=
  ops.foldl (fun s op => runState op s) st

/-- Store states reachable from the empty collection by inserts and
mark-processed calls (with arbitrary surrogate keys and timestamps). -/
inductive Reachable : List Email → Prop where
  | empty : Reachable []
  | step_store (f n : String) (r : EmailInput) {st : List Email} :
      Reachable st → Reachable (store_email f n st r).2
  | step_mark (n i a : String) {st : List Email} :
      Reachable st → Reachable (mark_email_processed n st i a).2

/-! ## MIME decomposer: payload trees and body extraction -/

/-- A node of the Gmail payload tree: a dict with a `parts` key is a
multipart container; otherwise it is a leaf carrying `mimeType`,
`filename`, an optional inline `body.data` (the raw base64url text, absent
when the dict has no data key), `body.size` and `body.attachmentId`. -/
inductive Part where
  | container (children : List Part)
  | leaf (mimeType filename : String) (dat : Option String) (size : Nat)
      (attachmentId : String)

/-- The pair of body slots filled by extraction. -/
structure BodyData where
  text : String
  html : String
deriving DecidableEq

/-- The merge a container child performs on the loop accumulator: the
child result fills a slot only when that slot is still empty and the child
result for it is non-empty. -/
def mergeSlots (acc nested : BodyData) : BodyData :=
  ⟨if acc.text == "" && nested.text != "" then nested.text else acc.text,
   if acc.html == "" && nested.html != "" then nested.html else acc.html⟩

/-- The effect of one leaf on the loop accumulator: the truthiness test on
the data, the decode attempt with its local exception handler, and the
first-found-wins slot writes keyed on the MIME type. -/
def leafStep (dec : String → Option String) (acc : BodyData) (mime : String)
    (dat : Option String) : BodyData :=
  match dat with
  | some d =>
      if d != "" then
        match dec d with
        | some decoded =>
            if mime == "text/plain" && acc.text == "" then
              { acc with text := decoded }
            else if mime == "text/html" && acc.html == "" then
              { acc with html := decoded }
            else acc
        | none => acc
      else acc
  | none => acc

/-- `GmailReader._extract_from_parts`, with the loop accumulator made
explicit.  `dec` models `base64.urlsafe_b64decode(...).decode("utf-8")`:
`none` is a raised exception, caught per leaf.  A leaf whose data is absent
or empty fails the truthiness test and is skipped before decoding. -/
def extract_from_parts_aux (dec : String → Option String) (acc : BodyData) :
    List Part → BodyData
  | [] => acc
  | Part.container children :: rest =>
      extract_from_parts_aux dec
        (mergeSlots acc (extract_from_parts_aux dec ⟨"", ""⟩ children)) rest
  | Part.leaf mime _ dat _ _ :: rest =>
      extract_from_parts_aux dec (leafStep dec acc mime dat) rest

/-- `GmailReader._extract_from_parts`. -/
def extract_from_parts (dec : String → Option String) (parts : List Part) :
    BodyData :=
  extract_from_parts_aux dec ⟨"", ""⟩ parts

/-- The effect of one part (container or leaf) on the loop accumulator. -/
def partStep (dec : String → Option String) (acc : BodyData) : Part → BodyData
  | Part.container children =>
      mergeSlots acc (extract_from_parts_aux dec ⟨"", ""⟩ children)
  | Part.leaf mime _ dat _ _ => leafStep dec acc mime dat

/-- `GmailReader._extract_body`.  A multipart payload delegates to
`extract_from_parts`; a leaf payload with truthy data is decoded directly,
a decoding failure being caught by the surrounding handler, which leaves
both slots empty. -/
def extract_body (dec : String → Option String) : Part → BodyData
  | Part.container parts => extract_from_parts dec parts
  | Part.leaf mime _ (some d) _ _ =>
      if d != "" then
        match dec d with
        | some decoded =>
            if mime == "text/plain" then ⟨decoded, ""⟩
            else if mime == "text/html" then ⟨"", decoded⟩
            else ⟨"", ""⟩
        | none => ⟨"", ""⟩
      else ⟨"", ""⟩
  | Part.leaf _ _ none _ _ => ⟨"", ""⟩

/-! ## MIME decomposer: attachment extraction -/

/-- An attachment descriptor as built by `_extract_attachments`. -/
structure Attachment where
  filename : String
  mime_type : String
  size : Nat
  attachment_id : String
deriving DecidableEq

/-- Inner recursion `process_parts` of `GmailReader._extract_attachments`:
containers are walked recursively, leaves with a non-empty filename are
collected in visiting order. -/
def processParts : List Part → List Attachment
  | [] => []
  | Part.container children :: rest => processParts children ++ processParts rest
  | Part.leaf mime fname _ sz aid :: rest =>
      (if fname != "" then [⟨fname, mime, sz, aid⟩] else []) ++ processParts rest

/-- `GmailReader._extract_attachments`: the walk is started only when the
payload itself has a `parts` key; a leaf payload yields no attachments. -/
def extract_attachments : Part → List Attachment
  | Part.container children => processParts children
  | Part.leaf _ _ _ _ _ => []

/-! ## MIME decomposer: specification-side views of the tree -/

/-- The leaves of a list of trees, in depth-first pre-order. -/
def leavesList : List Part → List Part
  | [] => []
  | Part.container cs :: rest => leavesList cs ++ leavesList rest
  | l :: rest => l :: leavesList rest

/-- The leaves of a tree, in depth-first pre-order. -/
def leaves (p : Part) : List Part := leavesList [p]

/-- The text-body candidate a leaf actually contributes in the code: a
`text/plain` leaf with truthy data that decodes to a non-empty string.
A leaf that decodes to the empty string writes the empty string into an
empty slot, which leaves the slot empty, so it is not a candidate. -/
def textCandidate (dec : String → Option String) : Part → Option String
  | Part.leaf mime _ (some d) _ _ =>
      if mime == "text/plain" && d != "" then
        match dec d with
        | some s => if s != "" then some s else none
        | none => none
      else none
  | _ => none

/-- The html-body candidate a leaf actually contributes, as `textCandidate`. -/
def htmlCandidate (dec : String → Option String) : Part → Option String
  | Part.leaf mime _ (some d) _ _ =>
      if mime == "text/html" && d != "" then
        match dec d with
        | some s => if s != "" then some s else none
        | none => none
      else none
  | _ => none

/-- First-found-wins text body over the pre-order leaves. -/
def firstText (dec : String → Option String) (t : Part) : String :=
  (((leaves t).filterMap (textCandidate dec)).headD "")

/-- First-found-wins html body over the pre-order leaves. -/
def firstHtml (dec : String → Option String) (t : Part) : String :=
  (((leaves t).filterMap (htmlCandidate dec)).headD "")

/-- The text candidates of a part list, in pre-order. -/
def candTexts (dec : String → Option String) (parts : List Part) : List String :=
  (leavesList parts).filterMap (textCandidate dec)

/-- The html candidates of a part list, in pre-order. -/
def candHtmls (dec : String → Option String) (parts : List Part) : List String :=
  (leavesList parts).filterMap (htmlCandidate dec)

/-- First-found-wins filling of one slot from a candidate list: an empty
slot takes the first candidate (or stays empty), a filled slot is kept. -/
def slotFill (slot : String) (cand : List String) : String :=
  if slot = "" then cand.headD "" else slot

/-- The claim-side reading of a text candidate: any `text/plain` leaf with
truthy data whose data decodes successfully, with no non-emptiness
requirement on the decoded result. -/
def claimTextCandidate (dec : String → Option String) : Part → Option String
  | Part.leaf mime _ (some d) _ _ =>
      if mime == "text/plain" && d != "" then dec d else none
  | _ => none

/-- The claim-side first successfully decoded `text/plain` leaf content in
pre-order. -/
def claimFirstText (dec : String → Option String) (t : Part) : Option String :=
  ((leaves t).filterMap (claimTextCandidate dec)).head?

/-- The attachment descriptor of a leaf with a non-empty filename. -/
def attachmentOf : Part → Option Attachment
  | Part.leaf mime fname _ sz aid =>
      if fname != "" then some ⟨fname, mime, sz, aid⟩ else none
  | _ => none

/-- Specification-side attachment list: every pre-order leaf with a
non-empty filename. -/
def attachmentsSpec (t : Part) : List Attachment :=
  (leaves t).filterMap attachmentOf

/-! ## MIME decomposer: leaf addressing for the error-locality claim -/

mutual

/-- The leaf reached from a node by a child-index path (empty path: the node
itself, which must be a leaf). -/
def leafAt : Part → List Nat → Option Part
  | Part.leaf m f d sz a, [] => some (Part.leaf m f d sz a)
  | Part.container _, [] => none
  | Part.leaf _ _ _ _ _, _ :: _ => none
  | Part.container cs, i :: rest => leafAtList cs i rest
termination_by p path => (path.length, sizeOf p)

/-- Helper of `leafAt`: descend into the i-th element of a part list. -/
def leafAtList : List Part → Nat → List Nat → Option Part
  | [], _, _ => none
  | p :: _, 0, path => leafAt p path
  | _ :: ps, Nat.succ i, path => leafAtList ps i path
termination_by l _ path => (path.length, sizeOf l)

end

mutual

/-- The same tree with the data of the leaf at the given path removed. -/
def removeDataAt : Part → List Nat → Part
  | Part.leaf m f _ sz a, [] => Part.leaf m f none sz a
  | Part.container cs, [] => Part.container cs
  | Part.leaf m f d sz a, _ :: _ => Part.leaf m f d sz a
  | Part.container cs, i :: rest => Part.container (removeDataAtList cs i rest)
termination_by p path => (path.length, sizeOf p)

/-- Helper of `removeDataAt`: rewrite the i-th element of a part list. -/
def removeDataAtList : List Part → Nat → List Nat → List Part
  | [], _, _ => []
  | p :: ps, 0, path => removeDataAt p path :: ps
  | p :: ps, Nat.succ i, path => p :: removeDataAtList ps i path
termination_by l _ path => (path.length, sizeOf l)

end

/-! ## Sender parsing: the address regular expression

The pattern in `_extract_email_address` is

  \b[A-Za-z0-9._%+-]+@[A-Za-z0-9.-]+\.[A-Z|a-z]{2,}\b

(note that the final class literally contains the bar character).  The
matcher below reproduces CPython search semantics for this pattern: starts
are tried left to right; a greedy quantifier consumes the maximal run and
gives characters back one at a time on failure of the rest of the pattern.
Since `@` is not in the local-part class, only the maximal local-part run
can be followed by `@`, so no backtracking is needed there.  Character
classes and the word-boundary test are read over ASCII. -/

/-- Word character of the `\b` assertion (ASCII reading of `\w`). -/
def wordChar (c : Char) : Bool := c.isAlphanum || c == '_'

/-- The local-part class `[A-Za-z0-9._%+-]`. -/
def lpChar (c : Char) : Bool :=
  c.isAlphanum || c == '.' || c == '_' || c == '%' || c == '+' || c == '-'

/-- The domain class `[A-Za-z0-9.-]`. -/
def dChar (c : Char) : Bool := c.isAlphanum || c == '.' || c == '-'

/-- The final class `[A-Z|a-z]`: upper case letters, the bar, lower case
letters. -/
def fChar (c : Char) : Bool := c.isUpper || c.isLower || c == '|'

/-- Whether position `q` of `s` holds a character satisfying `p` (`false`
outside the string). -/
def charSat (p : Char → Bool) (s : List Char) (q : Nat) : Bool :=
  match s[q]? with
  | some c => p c
  | none => false

/-- Whether position `q` of `s` holds a word character (`false` outside the
string). -/
def wordAt (s : List Char) (q : Nat) : Bool := charSat wordChar s q

/-- The `\b` assertion at position `q`: exactly one neighbour is a word
character. -/
def isBoundary (s : List Char) (q : Nat) : Bool :=
  (decide (q ≠ 0) && wordAt s (q - 1)) != wordAt s q

/-- Length of the maximal run of characters satisfying `p` starting at
position `i`. -/
def runLen (p : Char → Bool) (s : List Char) (i : Nat) : Nat :=
  ((s.drop i).takeWhile p).length

/-- Backtracking search: try `f` at `lo + k`, `lo + k - 1`, ..., `lo`, in
that order, returning the first success. -/
def tryFrom (f : Nat → Option α) (lo : Nat) : Nat → Option α
  | 0 => f lo
  | k + 1 =>
      match f (lo + k + 1) with
      | some r => some r
      | none => tryFrom f lo k

/-- Match `[A-Z|a-z]{2,}\b` at position `p`, greedily; returns the end
position of the whole match. -/
def fPart (s : List Char) (p : Nat) : Option Nat :=
  if runLen fChar s p < 2 then none
  else
    tryFrom (fun k3 => if isBoundary s (p + k3) then some (p + k3) else none)
      2 (runLen fChar s p - 2)

/-- Match `[A-Za-z0-9.-]+\.[A-Z|a-z]{2,}\b` at position `j`, greedily. -/
def dPart (s : List Char) (j : Nat) : Option Nat :=
  if runLen dChar s j = 0 then none
  else
    tryFrom
      (fun k2 =>
        if s[j + k2]? = some '.' then fPart s (j + k2 + 1) else none)
      1 (runLen dChar s j - 1)

/-- Attempt the whole pattern at start position `i`; returns the end
position on success. -/
def matchAt (s : List Char) (i : Nat) : Option Nat :=
  if isBoundary s i then
    if runLen lpChar s i = 0 then none
    else if s[i + runLen lpChar s i]? = some '@' then
      dPart s (i + runLen lpChar s i + 1)
    else none
  else none

/-- Try start positions `i`, `i + 1`, ... while fuel lasts, returning the
first successful start together with its end. -/
def searchAux (s : List Char) (i : Nat) : Nat → Option (Nat × Nat)
  | 0 => none
  | fuel + 1 =>
      match matchAt s i with
      | some e => some (i, e)
      | none => searchAux s (i + 1) fuel

/-- `re.search` of the address pattern: the leftmost match. -/
def reSearch (s : List Char) : Option (Nat × Nat) :=
  searchAux s 0 (s.length + 1)

/-- The substring of `s` from position `i` (inclusive) to `e` (exclusive). -/
def slice (s : List Char) (i e : Nat) : List Char := (s.drop i).take (e - i)

/-- `GmailReader._extract_email_address` on the character list: the empty
string short-circuit, then the first regex match, with the raw string as
fallback. -/
def emailAddrChars (s : List Char) : List Char :=
  if s = [] then []
  else
    match reSearch s with
    | some (i, e) => slice s i e
    | none => s

/-- `GmailReader._extract_email_address`. -/
def extract_email_address (s : String) : String :=
  String.mk (emailAddrChars s.data)

/-! ## Sender parsing: sender name -/

/-- Characters stripped by Python `str.strip()` with no argument, restricted
to ASCII: space, tab, newline, vertical tab, form feed, carriage return and
the four separator control characters 0x1c to 0x1f. -/
def pySpace (c : Char) : Bool :=
  c == ' ' || c == '\t' || c == '\n' || c == '\x0b' || c == '\x0c' ||
    c == '\x0d' || c == '\x1c' || c == '\x1d' || c == '\x1e' || c == '\x1f'

/-- Python `str.strip`: drop characters satisfying `p` from both ends. -/
def pyStrip (p : Char → Bool) (s : List Char) : List Char :=
  ((s.dropWhile p).reverse.dropWhile p).reverse

/-- `GmailReader._extract_sender_name` on the character list: the empty
string short-circuit, then the text before the first `<` stripped of
whitespace and then of double quotes, else the text before the first `@`,
else the string unchanged. -/
def senderNameChars (s : List Char) : List Char :=
  if s = [] then []
  else if s.contains '<' then
    pyStrip (fun c => c == '"') (pyStrip pySpace (s.takeWhile (fun c => c != '<')))
  else if s.contains '@' then s.takeWhile (fun c => c != '@')
  else s

/-- `GmailReader._extract_sender_name`. -/
def extract_sender_name (s : String) : String :=
  String.mk (senderNameChars s.data)

/-- Sender-name field as worded by the specification: if the raw string
contains `<`, the text before the first `<` trimmed of whitespace and of
surrounding quote characters; else, if it contains `@`, the local part
before the first `@`; else the raw string unchanged. -/
def senderNameSpec (s : List Char) : List Char :=
  if s.contains '<' then
    pyStrip (fun c => c == '"') (pyStrip pySpace (s.takeWhile (fun c => c != '<')))
  else if s.contains '@' then s.takeWhile (fun c => c != '@')
  else s

/-- Declarative reading of one pattern match: `s` matches between `i` and
`e` when the span decomposes as a non-empty local-part run, `@`, a
non-empty domain run, a dot, and at least two final-class characters, with
word boundaries at both ends. -/
def specMatchAt (s : List Char) (i e : Nat) : Prop :=
  ∃ l1 l2 l3 : Nat,
    1 ≤ l1 ∧ 1 ≤ l2 ∧ 2 ≤ l3 ∧
    e = i + l1 + 1 + l2 + 1 + l3 ∧ e ≤ s.length ∧
    isBoundary s i = true ∧
    (∀ k, k < l1 → charSat lpChar s (i + k) = true) ∧
    s[i + l1]? = some '@' ∧
    (∀ k, k < l2 → charSat dChar s (i + l1 + 1 + k) = true) ∧
    s[i + l1 + 1 + l2]? = some '.' ∧
    (∀ k, k < l3 → charSat fChar s (i + l1 + 1 + l2 + 1 + k) = true) ∧
    isBoundary s e = true

/-! ## Concrete fixtures used by witnesses and counterexamples -/

/-- A decoding function agreeing with
`base64.urlsafe_b64decode(...).decode("utf-8")` on its three-point domain:
`"\n"` really decodes to the empty string (all characters outside the
base64 alphabet are discarded, leaving zero data characters), and
`"aGVsbG8="` decodes to `"hello"`. -/
def decEx : String → Option String := fun s =>
  if s == "\n" then some ""
  else if s == "aGVsbG8=" then some "hello"
  else none

/-- Two sibling `text/plain` leaves, both with truthy data that decodes
successfully; the first decodes to the empty string. -/
def cexTree : Part :=
  Part.container
    [Part.leaf "text/plain" "" (some "\n") 2 "",
     Part.leaf "text/plain" "" (some "aGVsbG8=") 8 ""]

/-- A payload whose root is itself a leaf carrying a filename. -/
def cexLeafRoot : Part := Part.leaf "image/png" "a.png" none 7 "att1"

/-- Sample insert-path records. -/
def rA : EmailInput :=
  { id := "m1", thread_id := "t1", subject := "hi", sender_email := "a@x.co" }

/-- A second sample insert-path record. -/
def rB : EmailInput :=
  { id := "m2", thread_id := "t1", subject := "re", sender_email := "b@x.co" }

/-- A nested tree with one failing leaf, for the error-locality witness:
the second child of the root is a container whose first child carries
undecodable data. -/
def c8Tree : Part :=
  Part.container
    [Part.leaf "text/plain" "" (some "aGVsbG8=") 8 "",
     Part.container
       [Part.leaf "text/html" "" (some "%%%") 3 "",
        Part.leaf "text/html" "" (some "\n") 2 ""]]

/-! ## Helper lemmas: lexicographic order -/

theorem lexLe_cons (x y : Char) (xs ys : List Char) :
    lexLe (x :: xs) (y :: ys) = true ↔
      x.toNat < y.toNat ∨ (x.toNat = y.toNat ∧ lexLe xs ys = true) := by
  simp only [lexLe]
  by_cases h1 : x.toNat < y.toNat
  · simp [h1]
  · by_cases h2 : x.toNat = y.toNat
    · simp [h1, h2]
    · simp [h1, h2]

theorem lexLe_total : ∀ a b : List Char, (lexLe a b || lexLe b a) = true := by
  intro a
  induction a with
  | nil => intro b; cases b <;> simp [lexLe]
  | cons x xs ih =>
      intro b
      cases b with
      | nil => simp [lexLe]
      | cons y ys =>
          rw [Bool.or_eq_true, lexLe_cons, lexLe_cons]
          rcases Nat.lt_trichotomy x.toNat y.toNat with h | h | h
          · exact Or.inl (Or.inl h)
          · have h2 := ih ys
            rw [Bool.or_eq_true] at h2
            rcases h2 with h2 | h2
            · exact Or.inl (Or.inr ⟨h, h2⟩)
            · exact Or.inr (Or.inr ⟨h.symm, h2⟩)
          · exact Or.inr (Or.inl h)

theorem lexLe_trans :
    ∀ a b c : List Char, lexLe a b = true → lexLe b c = true →
      lexLe a c = true := by
  intro a
  induction a with
  | nil => intro b c _ _; cases c <;> simp [lexLe]
  | cons x xs ih =>
      intro b c hab hbc
      cases b with
      | nil => simp [lexLe] at hab
      | cons y ys =>
          cases c with
          | nil => simp [lexLe] at hbc
          | cons z zs =>
              rw [lexLe_cons] at hab hbc ⊢
              rcases hab with h1 | ⟨h1, h1'⟩ <;> rcases hbc with h2 | ⟨h2, h2'⟩
              · exact Or.inl (Nat.lt_trans h1 h2)
              · exact Or.inl (h2 ▸ h1)
              · exact Or.inl (h1 ▸ h2)
              · exact Or.inr ⟨h1.trans h2, ih ys zs h1' h2'⟩

theorem createdDesc_trans :
    ∀ a b c : Email, createdDesc a b = true → createdDesc b c = true →
      createdDesc a c = true := by
  intro a b c h1 h2
  exact lexLe_trans _ _ _ h2 h1

theorem createdDesc_total :
    ∀ a b : Email, (createdDesc a b || createdDesc b a) = true := by
  intro a b
  simpa [createdDesc, strLe, Bool.or_comm] using
    lexLe_total a.created_at.data b.created_at.data

/-! ## Helper lemmas: the mark-processed loop -/

theorem markAux_none_iff (now analysis email_id : String) :
    ∀ st : List Email,
      markAux now analysis email_id st = none ↔ ∀ e ∈ st, e.id ≠ email_id := by
  intro st
  induction st with
  | nil => simp [markAux]
  | cons e rest ih =>
      by_cases h : e.id = email_id
      · simp [markAux, h]
      · simp [markAux, h, Option.map_eq_none, ih]

theorem markAux_some_decomp :
    ∀ (now analysis email_id : String) (st st' : List Email),
      markAux now analysis email_id st = some st' →
      ∃ pre e post,
        st = pre ++ e :: post ∧ (∀ x ∈ pre, x.id ≠ email_id) ∧
        e.id = email_id ∧
        st' = pre ++ markUpdate now analysis e :: post := by
  intro now analysis email_id st
  induction st with
  | nil => intro st' h; simp [markAux] at h
  | cons e rest ih =>
      intro st' h
      by_cases he : e.id = email_id
      · refine ⟨[], e, rest, by simp, by simp, he, ?_⟩
        simp [markAux, he] at h
        simpa using h.symm
      · simp [markAux, he, Option.map_eq_some] at h
        obtain ⟨rest', hrest, hst'⟩ := h
        obtain ⟨pre, e0, post, hsplit, hpre, he0, hrest'⟩ := ih rest' hrest
        exact ⟨e :: pre, e0, post, by simp [hsplit],
          by simpa [he] using hpre, he0, by simp [hst'.symm, hrest']⟩

theorem markAux_of_decomp :
    ∀ (now analysis email_id : String) (pre post : List Email) (e : Email),
      (∀ x ∈ pre, x.id ≠ email_id) → e.id = email_id →
      markAux now analysis email_id (pre ++ e :: post) =
        some (pre ++ markUpdate now analysis e :: post) := by
  intro now analysis email_id pre
  induction pre with
  | nil => intro post e _ he; simp [markAux, he]
  | cons x xs ih =>
      intro post e hpre he
      have hx : x.id ≠ email_id := hpre x (by simp)
      have := ih post e (fun y hy => hpre y (by simp [hy])) he
      simp [markAux, hx, this]

theorem markAux_getElem? :
    ∀ (now analysis email_id : String) (st st' : List Email),
      markAux now analysis email_id st = some st' →
      ∀ (i : Nat) (e : Email), st[i]? = some e →
        ∃ e', st'[i]? = some e' ∧ e'.db_id = e.db_id ∧
          e'.created_at = e.created_at := by
  intro now analysis email_id st
  induction st with
  | nil => intro st' h; simp [markAux] at h
  | cons e0 rest ih =>
      intro st' h i e hi
      by_cases he0 : e0.id = email_id
      · simp [markAux, he0] at h
        cases i with
        | zero =>
            simp at hi
            exact ⟨markUpdate now analysis e0, by simp [h.symm],
              by simp [hi.symm, markUpdate], by simp [hi.symm, markUpdate]⟩
        | succ j =>
            simp at hi
            exact ⟨e, by simp [h.symm, hi], rfl, rfl⟩
      · simp [markAux, he0, Option.map_eq_some] at h
        obtain ⟨rest', hrest, hst'⟩ := h
        cases i with
        | zero =>
            simp at hi
            exact ⟨e0, by simp [hst'.symm], by simp [hi.symm], by simp [hi.symm]⟩
        | succ j =>
            simp at hi
            obtain ⟨e', h1, h2, h3⟩ := ih rest' hrest j e hi
            exact ⟨e', by simp [hst'.symm, h1], h2, h3⟩

/-! ## C1: idempotent insert -/

/-- C1: inserting a record whose id already occurs in the store is a no-op:
the collection is unchanged and the returned surrogate key is the `db_id`
of the (first) stored record with that id; consequently inserting the same
id twice returns the same surrogate key both times and leaves the state
after the first insert untouched, whatever surrogate key and timestamp the
second insert would have used. -/
theorem store_email_dedup_idempotent :
    (∀ (f n : String) (st : List Email) (r : EmailInput),
        (∃ e ∈ st, e.id = r.id) →
        (store_email f n st r).2 = st ∧
        ∃ e0 ∈ st, e0.id = r.id ∧ (store_email f n st r).1 = e0.db_id) ∧
    (∀ (f1 n1 f2 n2 : String) (st : List Email) (r : EmailInput),
        store_email f2 n2 (store_email f1 n1 st r).2 r =
          ((store_email f1 n1 st r).1, (store_email f1 n1 st r).2)) := by
  constructor
  · intro f n st r hex
    have hsome : (st.find? (fun e => e.id == r.id)).isSome = true := by
      rw [List.find?_isSome]
      obtain ⟨e, he, hid⟩ := hex
      exact ⟨e, he, by simp [hid]⟩
    obtain ⟨e0, hfind⟩ := Option.isSome_iff_exists.mp hsome
    refine ⟨by simp [store_email, hfind], e0, List.mem_of_find?_eq_some hfind,
      ?_, by simp [store_email, hfind]⟩
    have := List.find?_some hfind
    simpa using this
  · intro f1 n1 f2 n2 st r
    cases hfind : st.find? (fun e => e.id == r.id) with
    | some e0 => simp [store_email, hfind]
    | none =>
        have hnew : (newEmail r f1 n1).id = r.id := rfl
        simp [store_email, hfind, List.find?_append, newEmail]

/-- C1 witness: a concrete duplicate insert is a no-op returning the stored
surrogate key, and the two inserts of the same id agree. -/
theorem store_email_dedup_idempotent_witness :
    ((store_email "u9" "T9" (store_email "u1" "T1" [] rA).2 rA).2 =
        (store_email "u1" "T1" [] rA).2 ∧
      ∃ e0 ∈ (store_email "u1" "T1" [] rA).2, e0.id = rA.id ∧
        (store_email "u9" "T9" (store_email "u1" "T1" [] rA).2 rA).1 = e0.db_id) ∧
    store_email "u9" "T9" (store_email "u1" "T1" [] rA).2 rA =
      ((store_email "u1" "T1" [] rA).1, (store_email "u1" "T1" [] rA).2) := by
  constructor
  · exact store_email_dedup_idempotent.1 "u9" "T9" (store_email "u1" "T1" [] rA).2 rA
      ⟨newEmail rA "u1" "T1", by decide, by decide⟩
  · exact store_email_dedup_idempotent.2 "u1" "T1" "u9" "T9" [] rA

/-! ## C3: processed flag and timestamp stay in step -/

/-- C3: in every store state reachable from the empty store by inserts and
mark-processed calls, a record is flagged processed exactly when it carries
a processed-at timestamp. -/
theorem processed_iff_processed_at {st : List Email} (h : Reachable st) :
    ∀ e ∈ st, e.processed = true ↔ e.processed_at.isSome = true := by
  induction h with
  | empty => simp
  | @step_store f n r st' hr ih =>
      intro e he
      cases hfind : st'.find? (fun x => x.id == r.id) with
      | some e0 =>
          simp [store_email, hfind] at he
          exact ih e he
      | none =>
          simp [store_email, hfind] at he
          rcases he with he | he
          · exact ih e he
          · simp [he, newEmail]
  | @step_mark n i a st' hr ih =>
      intro e he
      cases hmark : markAux n a i st' with
      | none => simp [mark_email_processed, hmark] at he; exact ih e he
      | some st'' =>
          simp [mark_email_processed, hmark] at he
          obtain ⟨pre, e0, post, hsplit, _, _, hst''⟩ :=
            markAux_some_decomp n a i st' st'' hmark
          rw [hst''] at he
          simp at he
          rcases he with he | he | he
          · exact ih e (by simp [hsplit, he])
          · simp [he, markUpdate]
          · exact ih e (by simp [hsplit, he])

/-- C3 witness: the invariant evaluated on the concrete state reached by one
insert then one mark-processed call. -/
theorem processed_iff_processed_at_witness :
    ((mark_email_processed "T2" (store_email "u1" "T1" [] rA).2 "m1" "an").2).all
      (fun e => e.processed == e.processed_at.isSome) = true := by
  have h := processed_iff_processed_at
    (Reachable.step_mark "T2" "m1" "an" (Reachable.step_store "u1" "T1" rA Reachable.empty))
  rw [List.all_eq_true]
  intro e he
  have hiff := h e he
  cases hp : e.processed <;> cases ha : e.processed_at.isSome <;> simp_all

/-! ## C5: mark-processed success and failure -/

/-- C5: marking an id with no matching record returns false and leaves the
collection untouched; marking an existing id returns true and rewrites
exactly the processed flag, analysis payload and timestamp of the first
matching record; re-marking overwrites rather than accumulates, so marking
twice equals marking once with the second payload. -/
theorem mark_email_processed_spec :
    (∀ (now : String) (st : List Email) (i a : String),
        (∀ e ∈ st, e.id ≠ i) →
        mark_email_processed now st i a = (false, st)) ∧
    (∀ (now : String) (pre post : List Email) (e : Email) (i a : String),
        (∀ x ∈ pre, x.id ≠ i) → e.id = i →
        mark_email_processed now (pre ++ e :: post) i a =
          (true, pre ++ markUpdate now a e :: post)) ∧
    (∀ (n1 n2 : String) (st : List Email) (i a1 a2 : String),
        mark_email_processed n2 (mark_email_processed n1 st i a1).2 i a2 =
          mark_email_processed n2 st i a2) := by
  refine ⟨?_, ?_, ?_⟩
  · intro now st i a hnone
    have := (markAux_none_iff now a i st).mpr hnone
    simp [mark_email_processed, this]
  · intro now pre post e i a hpre he
    have := markAux_of_decomp now a i pre post e hpre he
    simp [mark_email_processed, this]
  · intro n1 n2 st i a1 a2
    cases hmark : markAux n1 a1 i st with
    | none => simp [mark_email_processed, hmark]
    | some st' =>
        obtain ⟨pre, e, post, hsplit, hpre, he, hst'⟩ :=
          markAux_some_decomp n1 a1 i st st' hmark
        have h1 : markAux n2 a2 i st' = some (pre ++ markUpdate n2 a2 e :: post) := by
          have hupd : (markUpdate n1 a1 e).id = e.id := rfl
          have := markAux_of_decomp n2 a2 i pre post (markUpdate n1 a1 e) hpre
            (by simpa [hupd] using he)
          simpa [hst', markUpdate] using this
        have h2 : markAux n2 a2 i st = some (pre ++ markUpdate n2 a2 e :: post) := by
          rw [hsplit]; exact markAux_of_decomp n2 a2 i pre post e hpre he
        simp [mark_email_processed, hmark, h1, h2]

/-- C5 witness: concrete failure (unchanged state), concrete success, and a
concrete overwrite of an earlier mark. -/
theorem mark_email_processed_spec_witness :
    mark_email_processed "T2" [newEmail rA "u1" "T1"] "zz" "an" =
        (false, [newEmail rA "u1" "T1"]) ∧
    mark_email_processed "T2" [newEmail rA "u1" "T1"] "m1" "an" =
        (true, [markUpdate "T2" "an" (newEmail rA "u1" "T1")]) ∧
    mark_email_processed "T3"
        (mark_email_processed "T2" [newEmail rA "u1" "T1"] "m1" "an").2 "m1" "bn" =
      mark_email_processed "T3" [newEmail rA "u1" "T1"] "m1" "bn" := by
  refine ⟨?_, ?_, ?_⟩
  · exact mark_email_processed_spec.1 "T2" [newEmail rA "u1" "T1"] "zz" "an"
      (by intro e he; simp at he; simp [he, newEmail, rA])
  · exact mark_email_processed_spec.2.1 "T2" [] [] (newEmail rA "u1" "T1") "m1" "an"
      (by simp) (by decide)
  · exact mark_email_processed_spec.2.2 "T2" "T3" [newEmail rA "u1" "T1"] "m1" "an" "bn"

/-! ## C7: the unprocessed query -/

/-- C7: the unprocessed query returns a permutation of exactly the records
whose processed flag is false, arranged in descending created-at order,
truncated to the first `limit` entries. -/
theorem get_unprocessed_emails_spec :
    ∀ (st : List Email) (limit : Nat),
      ∃ l : List Email,
        get_unprocessed_emails st limit = l.take limit ∧
        l.Perm (st.filter (fun e => !e.processed)) ∧
        l.Pairwise (fun a b => createdDesc a b = true) := by
  intro st limit
  refine ⟨(st.filter (fun e => !e.processed)).mergeSort createdDesc, ?_, ?_, ?_⟩
  · rfl
  · exact List.mergeSort_perm _ _
  · exact List.sorted_mergeSort createdDesc_trans createdDesc_total _

/-! ## C9: surrogate key and creation timestamp are stable -/

/-- C9: no operation of the store (insert, mark-processed or any read
query) ever changes the `db_id` or `created_at` of a record already in the
collection; the record at each existing position keeps both fields. -/
theorem db_id_created_at_stable :
    ∀ (op : DbOp) (st : List Email) (i : Nat) (e : Email),
      st[i]? = some e →
      ∃ e', (runState op st)[i]? = some e' ∧
        e'.db_id = e.db_id ∧ e'.created_at = e.created_at := by
  intro op st i e hi
  cases op with
  | store f n r =>
      cases hfind : st.find? (fun x => x.id == r.id) with
      | some e0 => exact ⟨e, by simp [runState, store_email, hfind, hi], rfl, rfl⟩
      | none =>
          have hlt : i < st.length := by
            by_contra hge
            rw [List.getElem?_eq_none (Nat.le_of_not_lt hge)] at hi
            exact Option.noConfusion hi
          exact ⟨e, by simp [runState, store_email, hfind, List.getElem?_append,
            hlt, hi], rfl, rfl⟩
  | mark n id a =>
      cases hmark : markAux n a id st with
      | none => exact ⟨e, by simp [runState, mark_email_processed, hmark, hi], rfl, rfl⟩
      | some st' =>
          obtain ⟨e', h1, h2, h3⟩ := markAux_getElem? n a id st st' hmark i e hi
          exact ⟨e', by simp [runState, mark_email_processed, hmark, h1], h2, h3⟩
  | unproc l => exact ⟨e, by simp [runState, hi], rfl, rfl⟩
  | recent l => exact ⟨e, by simp [runState, hi], rfl, rfl⟩
  | thread t => exact ⟨e, by simp [runState, hi], rfl, rfl⟩
  | stats => exact ⟨e, by simp [runState, hi], rfl, rfl⟩

/-- C9 witness: a fresh insert into a one-record store keeps the stored
record at position zero with its surrogate key and timestamp. -/
theorem db_id_created_at_stable_witness :
    ∃ e', (runState (DbOp.store "u2" "T2" rB) [newEmail rA "u1" "T1"])[0]? = some e' ∧
      e'.db_id = (newEmail rA "u1" "T1").db_id ∧
      e'.created_at = (newEmail rA "u1" "T1").created_at :=
  db_id_created_at_stable (DbOp.store "u2" "T2" rB) [newEmail rA "u1" "T1"] 0
    (newEmail rA "u1" "T1") (by decide)

/-! ## C10: the read queries are pure observers -/

/-- C10: the four read queries leave the collection exactly as it was, so
any later sequence of operations runs from the same state and returns the
same answers whether or not a query ran first. -/
theorem read_queries_pure :
    ∀ (q : DbOp) (st : List Email), isQuery q = true →
      runState q st = st ∧
      (∀ ops : List DbOp, runOps ops (runState q st) = runOps ops st) ∧
      (∀ (q2 : DbOp) (ops : List DbOp),
        runOut q2 (runOps ops (runState q st)) = runOut q2 (runOps ops st)) := by
  intro q st hq
  have hstate : runState q st = st := by
    cases q with
    | store f n r => simp [isQuery] at hq
    | mark n i a => simp [isQuery] at hq
    | unproc l => rfl
    | recent l => rfl
    | thread t => rfl
    | stats => rfl
  exact ⟨hstate, fun ops => by rw [hstate], fun q2 ops => by rw [hstate]⟩

/-- C10 witness: a concrete stats query leaves a one-record store unchanged
and does not disturb the answer of a later unprocessed query. -/
theorem read_queries_pure_witness :
    runState DbOp.stats [newEmail rA "u1" "T1"] = [newEmail rA "u1" "T1"] ∧
    runOut (DbOp.unproc 5)
        (runOps [DbOp.mark "T2" "m1" "an"]
          (runState DbOp.stats [newEmail rA "u1" "T1"])) =
      runOut (DbOp.unproc 5)
        (runOps [DbOp.mark "T2" "m1" "an"] [newEmail rA "u1" "T1"]) := by
  have h := read_queries_pure DbOp.stats [newEmail rA "u1" "T1"] rfl
  exact ⟨h.1, h.2.2 (DbOp.unproc 5) [DbOp.mark "T2" "m1" "an"]⟩

/-! ## Helper lemmas: body extraction -/

theorem textCandidate_ne_empty (dec : String → Option String) (p : Part)
    (s : String) (h : textCandidate dec p = some s) : s ≠ "" := by
  cases p with
  | container cs => simp [textCandidate] at h
  | leaf mime fn dat sz aid =>
      cases dat with
      | none => simp [textCandidate] at h
      | some d =>
          simp only [textCandidate] at h
          split at h
          · cases hdec : dec d with
            | none => rw [hdec] at h; simp at h
            | some s0 =>
                rw [hdec] at h
                by_cases hs0 : s0 = "" <;> simp [hs0] at h
                simpa [h] using hs0
          · simp at h

theorem htmlCandidate_ne_empty (dec : String → Option String) (p : Part)
    (s : String) (h : htmlCandidate dec p = some s) : s ≠ "" := by
  cases p with
  | container cs => simp [htmlCandidate] at h
  | leaf mime fn dat sz aid =>
      cases dat with
      | none => simp [htmlCandidate] at h
      | some d =>
          simp only [htmlCandidate] at h
          split at h
          · cases hdec : dec d with
            | none => rw [hdec] at h; simp at h
            | some s0 =>
                rw [hdec] at h
                by_cases hs0 : s0 = "" <;> simp [hs0] at h
                simpa [h] using hs0
          · simp at h

theorem candTexts_ne_empty (dec : String → Option String) (parts : List Part) :
    ∀ x ∈ candTexts dec parts, x ≠ "" := by
  intro x hx
  obtain ⟨p, _, hp⟩ := List.mem_filterMap.mp hx
  exact textCandidate_ne_empty dec p x hp

theorem candHtmls_ne_empty (dec : String → Option String) (parts : List Part) :
    ∀ x ∈ candHtmls dec parts, x ≠ "" := by
  intro x hx
  obtain ⟨p, _, hp⟩ := List.mem_filterMap.mp hx
  exact htmlCandidate_ne_empty dec p x hp

theorem slotFill_nil (s : String) : slotFill s [] = s := by
  by_cases h : s = "" <;> simp [slotFill, h]

theorem slotFill_single (s x : String) :
    slotFill s [x] = if s = "" then x else s := by
  by_cases h : s = "" <;> simp [slotFill, h]

theorem slotFill_append (s : String) (c1 c2 : List String)
    (h : ∀ x ∈ c1, x ≠ "") :
    slotFill (slotFill s c1) c2 = slotFill s (c1 ++ c2) := by
  by_cases hs : s = ""
  · cases c1 with
    | nil => simp [slotFill, hs]
    | cons a t => have ha : a ≠ "" := h a (by simp); simp [slotFill, hs, ha]
  · simp [slotFill, hs]

theorem slot_merge_one (s : String) (c : List String) :
    (if s == "" && slotFill "" c != "" then slotFill "" c else s) =
      slotFill s c := by
  by_cases hs : s = ""
  · cases c with
    | nil => simp [slotFill, hs]
    | cons a t => by_cases ha : a = "" <;> simp [slotFill, hs, ha]
  · simp [slotFill, hs]

theorem mergeSlots_slotFill (acc : BodyData) (c1 d1 : List String) :
    mergeSlots acc ⟨slotFill "" c1, slotFill "" d1⟩ =
      ⟨slotFill acc.text c1, slotFill acc.html d1⟩ := by
  have h1 := slot_merge_one acc.text c1
  have h2 := slot_merge_one acc.html d1
  simp only [mergeSlots]
  rw [h1, h2]

theorem leafStep_slotFill (dec : String → Option String) (acc : BodyData)
    (mime fn : String) (dat : Option String) (sz : Nat) (aid : String) :
    leafStep dec acc mime dat =
      ⟨slotFill acc.text (textCandidate dec (Part.leaf mime fn dat sz aid)).toList,
       slotFill acc.html (htmlCandidate dec (Part.leaf mime fn dat sz aid)).toList⟩ := by
  cases dat with
  | none => simp [leafStep, textCandidate, htmlCandidate, slotFill_nil]
  | some d =>
      by_cases hd : d = ""
      · simp [leafStep, textCandidate, htmlCandidate, slotFill_nil, hd]
      · cases hdec : dec d with
        | none =>
            simp [leafStep, textCandidate, htmlCandidate, slotFill_nil, hd, hdec]
        | some s =>
            by_cases hplain : mime = "text/plain"
            · by_cases hs : s = ""
              · by_cases ht : acc.text = "" <;>
                  simp [leafStep, textCandidate, htmlCandidate, slotFill_nil,
                    slotFill_single, hd, hdec, hplain, hs, ht]
              · by_cases ht : acc.text = "" <;>
                  simp [leafStep, textCandidate, htmlCandidate, slotFill_nil,
                    slotFill_single, hd, hdec, hplain, hs, ht]
            · by_cases hhtml : mime = "text/html"
              · by_cases hs : s = ""
                · by_cases ht : acc.html = "" <;>
                    simp [leafStep, textCandidate, htmlCandidate, slotFill_nil,
                      slotFill_single, hd, hdec, hplain, hhtml, hs, ht]
                · by_cases ht : acc.html = "" <;>
                    simp [leafStep, textCandidate, htmlCandidate, slotFill_nil,
                      slotFill_single, hd, hdec, hplain, hhtml, hs, ht]
              · simp [leafStep, textCandidate, htmlCandidate, slotFill_nil,
                  hd, hdec, hplain, hhtml]

theorem leavesList_cons_container (cs rest : List Part) :
    leavesList (Part.container cs :: rest) = leavesList cs ++ leavesList rest := by
  simp [leavesList]

theorem leavesList_cons_leaf (m f : String) (dat : Option String) (sz : Nat)
    (aid : String) (rest : List Part) :
    leavesList (Part.leaf m f dat sz aid :: rest) =
      Part.leaf m f dat sz aid :: leavesList rest := by
  simp [leavesList]

theorem candTexts_cons_container (dec : String → Option String)
    (cs rest : List Part) :
    candTexts dec (Part.container cs :: rest) =
      candTexts dec cs ++ candTexts dec rest := by
  simp [candTexts, leavesList_cons_container, List.filterMap_append]

theorem candHtmls_cons_container (dec : String → Option String)
    (cs rest : List Part) :
    candHtmls dec (Part.container cs :: rest) =
      candHtmls dec cs ++ candHtmls dec rest := by
  simp [candHtmls, leavesList_cons_container, List.filterMap_append]

theorem candTexts_cons_leaf (dec : String → Option String) (m f : String)
    (dat : Option String) (sz : Nat) (aid : String) (rest : List Part) :
    candTexts dec (Part.leaf m f dat sz aid :: rest) =
      (textCandidate dec (Part.leaf m f dat sz aid)).toList ++
        candTexts dec rest := by
  cases h : textCandidate dec (Part.leaf m f dat sz aid) <;>
    simp [candTexts, leavesList_cons_leaf, List.filterMap_cons, h]

theorem candHtmls_cons_leaf (dec : String → Option String) (m f : String)
    (dat : Option String) (sz : Nat) (aid : String) (rest : List Part) :
    candHtmls dec (Part.leaf m f dat sz aid :: rest) =
      (htmlCandidate dec (Part.leaf m f dat sz aid)).toList ++
        candHtmls dec rest := by
  cases h : htmlCandidate dec (Part.leaf m f dat sz aid) <;>
    simp [candHtmls, leavesList_cons_leaf, List.filterMap_cons, h]

theorem extract_from_parts_aux_spec (dec : String → Option String) :
    ∀ (acc : BodyData) (parts : List Part),
      extract_from_parts_aux dec acc parts =
        ⟨slotFill acc.text (candTexts dec parts),
         slotFill acc.html (candHtmls dec parts)⟩ := by
  intro acc parts
  induction acc, parts using extract_from_parts_aux.induct dec with
  | case1 acc => simp [extract_from_parts_aux, candTexts, candHtmls, leavesList,
      slotFill_nil]
  | case2 acc children rest ih1 ih2 =>
      have hstep : extract_from_parts_aux dec acc (Part.container children :: rest) =
          extract_from_parts_aux dec
            (mergeSlots acc (extract_from_parts_aux dec ⟨"", ""⟩ children)) rest := by
        simp [extract_from_parts_aux]
      rw [hstep, ih2, ih1, mergeSlots_slotFill]
      dsimp only
      rw [candTexts_cons_container, candHtmls_cons_container]
      rw [slotFill_append acc.text _ _ (candTexts_ne_empty dec children),
        slotFill_append acc.html _ _ (candHtmls_ne_empty dec children)]
  | case3 acc mime fn dat sz aid rest ih =>
      have hstep : extract_from_parts_aux dec acc
            (Part.leaf mime fn dat sz aid :: rest) =
          extract_from_parts_aux dec (leafStep dec acc mime dat) rest := by
        simp [extract_from_parts_aux]
      rw [hstep, ih, leafStep_slotFill dec acc mime fn dat sz aid]
      dsimp only
      rw [candTexts_cons_leaf, candHtmls_cons_leaf]
      rw [slotFill_append acc.text _ _ (fun x hx =>
          textCandidate_ne_empty dec _ x (by simpa using hx)),
        slotFill_append acc.html _ _ (fun x hx =>
          htmlCandidate_ne_empty dec _ x (by simpa using hx))]

/-! ## C2: first-found-wins body merge (amended) -/

/-- C2 (amended): body extraction realizes first-found-wins over the
pre-order leaves, where a leaf is a candidate for the text (resp. html)
slot when its MIME type is text/plain (resp. text/html), its data is
present and truthy, and it decodes successfully to a non-empty string; the
extracted body is the first candidate, and the empty string when there is
none.  A leaf that decodes to the empty string writes nothing visible and
so does not end the search. -/
theorem extract_body_first_found_wins :
    ∀ (dec : String → Option String) (t : Part),
      extract_body dec t = ⟨firstText dec t, firstHtml dec t⟩ := by
  intro dec t
  cases t with
  | container parts =>
      rw [show extract_body dec (Part.container parts) =
          extract_from_parts dec parts from by simp [extract_body]]
      rw [extract_from_parts, extract_from_parts_aux_spec]
      have hT : firstText dec (Part.container parts) =
          (candTexts dec parts).headD "" := by
        simp [firstText, leaves, leavesList_cons_container, candTexts,
          leavesList]
      have hH : firstHtml dec (Part.container parts) =
          (candHtmls dec parts).headD "" := by
        simp [firstHtml, leaves, leavesList_cons_container, candHtmls,
          leavesList]
      rw [hT, hH]
      rfl
  | leaf mime fn dat sz aid =>
      have hT : firstText dec (Part.leaf mime fn dat sz aid) =
          slotFill "" (textCandidate dec (Part.leaf mime fn dat sz aid)).toList := by
        cases h : textCandidate dec (Part.leaf mime fn dat sz aid) <;>
          simp [firstText, leaves, leavesList, slotFill, h]
      have hH : firstHtml dec (Part.leaf mime fn dat sz aid) =
          slotFill "" (htmlCandidate dec (Part.leaf mime fn dat sz aid)).toList := by
        cases h : htmlCandidate dec (Part.leaf mime fn dat sz aid) <;>
          simp [firstHtml, leaves, leavesList, slotFill, h]
      rw [hT, hH]
      cases dat with
      | none => simp [extract_body, textCandidate, htmlCandidate, slotFill]
      | some d =>
          by_cases hd : d = ""
          · simp [extract_body, textCandidate, htmlCandidate, slotFill, hd]
          · cases hdec : dec d with
            | none =>
                simp [extract_body, textCandidate, htmlCandidate, slotFill,
                  hd, hdec]
            | some s =>
                by_cases hplain : mime = "text/plain"
                · by_cases hs : s = "" <;>
                    simp [extract_body, textCandidate, htmlCandidate, slotFill,
                      hd, hdec, hplain, hs]
                · by_cases hhtml : mime = "text/html"
                  · by_cases hs : s = "" <;>
                      simp [extract_body, textCandidate, htmlCandidate,
                        slotFill, hd, hdec, hplain, hhtml, hs]
                  · simp [extract_body, textCandidate, htmlCandidate, slotFill,
                      hd, hdec, hplain, hhtml]

/-- C2 counterexample: in `cexTree` the first pre-order `text/plain` leaf
whose data decodes successfully decodes to the empty string, yet the
extracted text body is the second leaf's content, not that first decoded
content. -/
theorem extract_body_first_found_wins_cex :
    claimFirstText decEx cexTree = some "" ∧
    (extract_body decEx cexTree).text = "hello" ∧
    ("hello" : String) ≠ "" := by
  refine ⟨?_, ?_, by decide⟩
  · simp [claimFirstText, leaves, leavesList, claimTextCandidate, cexTree,
      decEx]
  · simp [extract_body, extract_from_parts, extract_from_parts_aux, leafStep,
      mergeSlots, cexTree, decEx]

/-! ## C4: attachment extraction (amended) -/

theorem processParts_eq_spec :
    ∀ ps : List Part, processParts ps = (leavesList ps).filterMap attachmentOf := by
  intro ps
  induction ps using processParts.induct with
  | case1 => simp [processParts, leavesList]
  | case2 children rest ih1 ih2 =>
      rw [show processParts (Part.container children :: rest) =
          processParts children ++ processParts rest from by simp [processParts]]
      rw [ih1, ih2, leavesList_cons_container, List.filterMap_append]
  | case3 mime fname dat sz aid rest ih =>
      rw [show processParts (Part.leaf mime fname dat sz aid :: rest) =
          (if fname != "" then [⟨fname, mime, sz, aid⟩] else []) ++
            processParts rest from by simp [processParts]]
      rw [ih, leavesList_cons_leaf, List.filterMap_cons]
      by_cases hf : fname = "" <;> simp [attachmentOf, hf]

/-- C4 (amended): when the payload root is a multipart container, the
attachment walk returns exactly the pre-order leaves with a non-empty
filename, as descriptors, in visiting order; when the payload root is
itself a leaf, the walk is never started and the attachment list is empty,
even if that leaf carries a filename. -/
theorem extract_attachments_pre_order :
    (∀ cs : List Part,
        extract_attachments (Part.container cs) =
          attachmentsSpec (Part.container cs)) ∧
    (∀ (m f : String) (d : Option String) (sz : Nat) (a : String),
        extract_attachments (Part.leaf m f d sz a) = []) := by
  constructor
  · intro cs
    rw [show extract_attachments (Part.container cs) = processParts cs from rfl]
    rw [processParts_eq_spec]
    simp [attachmentsSpec, leaves, leavesList_cons_container, leavesList]
  · intro m f d sz a
    rfl

/-- C4 counterexample: a payload that is a single leaf carrying the
filename a.png yields no attachments, although the claimed walk over every
leaf would return that leaf's descriptor. -/
theorem extract_attachments_pre_order_cex :
    extract_attachments cexLeafRoot = [] ∧
    attachmentsSpec cexLeafRoot =
      [{ filename := "a.png", mime_type := "image/png", size := 7,
         attachment_id := "att1" }] ∧
    ([] : List Attachment) ≠
      [{ filename := "a.png", mime_type := "image/png", size := 7,
         attachment_id := "att1" }] := by
  refine ⟨rfl, ?_, by decide⟩
  simp [attachmentsSpec, leaves, leavesList, attachmentOf, cexLeafRoot]

/-! ## Helper lemmas: removing the data of one failing leaf -/

theorem aux_cons_partStep (dec : String → Option String) (acc : BodyData)
    (p : Part) (rest : List Part) :
    extract_from_parts_aux dec acc (p :: rest) =
      extract_from_parts_aux dec (partStep dec acc p) rest := by
  cases p <;> simp [extract_from_parts_aux, partStep]

theorem partStep_remove_nilpath (dec : String → Option String) (p : Part)
    (m f d : String) (sz : Nat) (aid : String)
    (h : leafAt p [] = some (Part.leaf m f (some d) sz aid))
    (hdec : dec d = none) (acc : BodyData) :
    partStep dec acc (removeDataAt p []) = partStep dec acc p := by
  cases p with
  | container cs => simp [leafAt] at h
  | leaf m0 f0 d0 sz0 aid0 =>
      have hp : Part.leaf m0 f0 d0 sz0 aid0 = Part.leaf m f (some d) sz aid := by
        simpa [leafAt] using h
      cases hp
      by_cases hd : d = ""
      · simp [removeDataAt, partStep, leafStep, hd]
      · simp [removeDataAt, partStep, leafStep, hd, hdec]

theorem aux_removeList_of (dec : String → Option String) (path : List Nat)
    (hstep : ∀ (p : Part) (m f d : String) (sz : Nat) (aid : String),
      leafAt p path = some (Part.leaf m f (some d) sz aid) → dec d = none →
      ∀ acc, partStep dec acc (removeDataAt p path) = partStep dec acc p) :
    ∀ (ps : List Part) (i : Nat) (m f d : String) (sz : Nat) (aid : String),
      leafAtList ps i path = some (Part.leaf m f (some d) sz aid) →
      dec d = none →
      ∀ acc, extract_from_parts_aux dec acc (removeDataAtList ps i path) =
        extract_from_parts_aux dec acc ps := by
  intro ps
  induction ps with
  | nil => intro i m f d sz aid h; simp [leafAtList] at h
  | cons p ps ih =>
      intro i m f d sz aid h hdec acc
      cases i with
      | zero =>
          have hp : leafAt p path = some (Part.leaf m f (some d) sz aid) := by
            simpa [leafAtList] using h
          rw [show removeDataAtList (p :: ps) 0 path =
              removeDataAt p path :: ps from by simp [removeDataAtList]]
          rw [aux_cons_partStep, aux_cons_partStep,
            hstep p m f d sz aid hp hdec acc]
      | succ j =>
          have hp : leafAtList ps j path = some (Part.leaf m f (some d) sz aid) := by
            simpa [leafAtList] using h
          rw [show removeDataAtList (p :: ps) (j + 1) path =
              p :: removeDataAtList ps j path from by simp [removeDataAtList]]
          rw [aux_cons_partStep, aux_cons_partStep,
            ih j m f d sz aid hp hdec (partStep dec acc p)]

theorem partStep_remove (dec : String → Option String) :
    ∀ (path : List Nat) (p : Part) (m f d : String) (sz : Nat) (aid : String),
      leafAt p path = some (Part.leaf m f (some d) sz aid) → dec d = none →
      ∀ acc, partStep dec acc (removeDataAt p path) = partStep dec acc p := by
  intro path
  induction path with
  | nil => exact fun p m f d sz aid h hdec acc =>
      partStep_remove_nilpath dec p m f d sz aid h hdec acc
  | cons k rest ih =>
      intro p m f d sz aid h hdec acc
      cases p with
      | leaf m0 f0 d0 sz0 aid0 => simp [leafAt] at h
      | container cs =>
          have hp : leafAtList cs k rest = some (Part.leaf m f (some d) sz aid) := by
            simpa [leafAt] using h
          rw [show removeDataAt (Part.container cs) (k :: rest) =
              Part.container (removeDataAtList cs k rest) from by
            simp [removeDataAt]]
          show mergeSlots acc
              (extract_from_parts_aux dec ⟨"", ""⟩ (removeDataAtList cs k rest)) =
            mergeSlots acc (extract_from_parts_aux dec ⟨"", ""⟩ cs)
          rw [aux_removeList_of dec rest ih cs k m f d sz aid hp hdec ⟨"", ""⟩]

/-! ## C8: a failing leaf contributes nothing -/

/-- C8: body extraction never propagates a decoding failure; a leaf whose
data fails to decode contributes nothing, and the extracted record equals
the one extracted from the same tree with that leaf's data removed. -/
theorem extract_body_decode_error_local :
    ∀ (dec : String → Option String) (t : Part) (path : List Nat)
      (m f d : String) (sz : Nat) (aid : String),
      leafAt t path = some (Part.leaf m f (some d) sz aid) →
      dec d = none →
      extract_body dec (removeDataAt t path) = extract_body dec t := by
  intro dec t path m f d sz aid h hdec
  cases t with
  | leaf m0 f0 d0 sz0 aid0 =>
      cases path with
      | nil =>
          have hp : Part.leaf m0 f0 d0 sz0 aid0 = Part.leaf m f (some d) sz aid := by
            simpa [leafAt] using h
          cases hp
          by_cases hd : d = ""
          · simp [removeDataAt, extract_body, hd]
          · simp [removeDataAt, extract_body, hd, hdec]
      | cons k rest => simp [leafAt] at h
  | container cs =>
      cases path with
      | nil => simp [leafAt] at h
      | cons k rest =>
          have hp : leafAtList cs k rest = some (Part.leaf m f (some d) sz aid) := by
            simpa [leafAt] using h
          rw [show removeDataAt (Part.container cs) (k :: rest) =
              Part.container (removeDataAtList cs k rest) from by
            simp [removeDataAt]]
          show extract_from_parts dec (removeDataAtList cs k rest) =
            extract_from_parts dec cs
          rw [extract_from_parts, extract_from_parts,
            aux_removeList_of dec rest (partStep_remove dec rest) cs k m f d sz
              aid hp hdec ⟨"", ""⟩]

/-- C8 witness: removing the data of the concrete failing leaf (path: second
child of the root, first child of that container) does not change the
extracted record. -/
theorem extract_body_decode_error_local_witness :
    extract_body decEx (removeDataAt c8Tree [1, 0]) = extract_body decEx c8Tree :=
  extract_body_decode_error_local decEx c8Tree [1, 0] "text/html" "" "%%%" 3 ""
    (by simp [c8Tree, leafAt, leafAtList]) (by decide)

/-! ## Helper lemmas: character runs -/

theorem charSat_lt_length (p : Char → Bool) (s : List Char) (q : Nat)
    (h : charSat p s q = true) : q < s.length := by
  by_contra hge
  rw [charSat, List.getElem?_eq_none (by omega)] at h
  simp at h

theorem charSat_drop (p : Char → Bool) (s : List Char) (i k : Nat) :
    charSat p (s.drop i) k = charSat p s (i + k) := by
  simp [charSat, List.getElem?_drop]

theorem takeWhile_sat (p : Char → Bool) :
    ∀ (l : List Char) (k : Nat), k < (l.takeWhile p).length →
      charSat p l k = true := by
  intro l
  induction l with
  | nil => intro k hk; simp [List.takeWhile] at hk
  | cons a t ih =>
      intro k hk
      by_cases ha : p a
      · cases k with
        | zero => simpa [charSat] using ha
        | succ j =>
            rw [List.takeWhile_cons, if_pos ha] at hk
            simp only [List.length_cons] at hk
            have := ih j (by omega)
            simpa [charSat] using this
      · rw [List.takeWhile_cons, if_neg ha] at hk
        simp at hk

theorem takeWhile_max (p : Char → Bool) :
    ∀ (l : List Char) (j : Nat), (∀ k, k < j → charSat p l k = true) →
      j ≤ (l.takeWhile p).length := by
  intro l
  induction l with
  | nil =>
      intro j hj
      cases j with
      | zero => simp
      | succ i => have := hj 0 (by omega); simp [charSat] at this
  | cons a t ih =>
      intro j hj
      cases j with
      | zero => simp
      | succ i =>
          have ha : p a = true := by simpa [charSat] using hj 0 (by omega)
          have ht := ih i (fun k hk => by
            simpa [charSat] using hj (k + 1) (by omega))
          rw [List.takeWhile_cons, if_pos ha]
          simp only [List.length_cons]
          omega

theorem runLen_sat (p : Char → Bool) (s : List Char) (i k : Nat)
    (h : k < runLen p s i) : charSat p s (i + k) = true := by
  rw [← charSat_drop]
  exact takeWhile_sat p (s.drop i) k h

theorem runLen_max (p : Char → Bool) (s : List Char) (i j : Nat)
    (h : ∀ k, k < j → charSat p s (i + k) = true) : j ≤ runLen p s i :=
  takeWhile_max p (s.drop i) j (fun k hk => by
    rw [charSat_drop]; exact h k hk)

/-! ## Helper lemmas: backtracking search -/

theorem tryFrom_some {α : Type} (f : Nat → Option α) (lo : Nat) :
    ∀ (k : Nat) (b : α), tryFrom f lo k = some b →
      ∃ j, lo ≤ j ∧ j ≤ lo + k ∧ f j = some b := by
  intro k
  induction k with
  | zero =>
      intro b h
      exact ⟨lo, Nat.le_refl lo, by omega, by simpa [tryFrom] using h⟩
  | succ n ih =>
      intro b h
      rw [tryFrom] at h
      cases hf : f (lo + n + 1) with
      | some r =>
          simp only [hf] at h
          exact ⟨lo + n + 1, by omega, by omega, by rw [hf, h]⟩
      | none =>
          simp only [hf] at h
          obtain ⟨j, h1, h2, h3⟩ := ih b h
          exact ⟨j, h1, by omega, h3⟩

theorem tryFrom_isSome {α : Type} (f : Nat → Option α) (lo : Nat) :
    ∀ (k j : Nat), lo ≤ j → j ≤ lo + k → (f j).isSome = true →
      (tryFrom f lo k).isSome = true := by
  intro k
  induction k with
  | zero =>
      intro j h1 h2 h3
      have hj : j = lo := by omega
      subst hj
      simpa [tryFrom] using h3
  | succ n ih =>
      intro j h1 h2 h3
      rw [tryFrom]
      cases hf : f (lo + n + 1) with
      | some r => simp
      | none =>
          have hj : j ≤ lo + n := by
            rcases Nat.lt_or_ge j (lo + n + 1) with h | h
            · omega
            · have hj1 : j = lo + n + 1 := by omega
              rw [hj1, hf] at h3
              simp at h3
          simpa using ih j h1 hj h3

/-! ## Helper lemmas: the pattern pieces -/

theorem fPart_some (s : List Char) (p e : Nat) (h : fPart s p = some e) :
    ∃ l3, 2 ≤ l3 ∧ e = p + l3 ∧
      (∀ k, k < l3 → charSat fChar s (p + k) = true) ∧
      isBoundary s e = true := by
  rw [fPart] at h
  by_cases hr : runLen fChar s p < 2
  · rw [if_pos hr] at h; simp at h
  · rw [if_neg hr] at h
    obtain ⟨j, h1, h2, h3⟩ := tryFrom_some _ 2 (runLen fChar s p - 2) e h
    have hj : j ≤ runLen fChar s p := by omega
    by_cases hb : isBoundary s (p + j) = true
    · rw [if_pos hb] at h3
      have he : e = p + j := by simpa using h3.symm
      refine ⟨j, h1, he, ?_, by rw [he]; exact hb⟩
      intro k hk
      exact runLen_sat fChar s p k (by omega)
    · rw [if_neg hb] at h3; simp at h3

theorem fPart_isSome (s : List Char) (p l3 : Nat) (h2 : 2 ≤ l3)
    (hc : ∀ k, k < l3 → charSat fChar s (p + k) = true)
    (hb : isBoundary s (p + l3) = true) : (fPart s p).isSome = true := by
  have hr : l3 ≤ runLen fChar s p := runLen_max fChar s p l3 hc
  rw [fPart, if_neg (by omega)]
  refine tryFrom_isSome _ 2 (runLen fChar s p - 2) l3 h2 (by omega) ?_
  rw [if_pos hb]
  simp

theorem dPart_some (s : List Char) (j e : Nat) (h : dPart s j = some e) :
    ∃ l2 l3, 1 ≤ l2 ∧ 2 ≤ l3 ∧ e = j + l2 + 1 + l3 ∧
      (∀ k, k < l2 → charSat dChar s (j + k) = true) ∧
      s[j + l2]? = some '.' ∧
      (∀ k, k < l3 → charSat fChar s (j + l2 + 1 + k) = true) ∧
      isBoundary s e = true := by
  rw [dPart] at h
  by_cases hr : runLen dChar s j = 0
  · rw [if_pos hr] at h; simp at h
  · rw [if_neg hr] at h
    obtain ⟨k2, h1, h2, h3⟩ := tryFrom_some _ 1 (runLen dChar s j - 1) e h
    have hk2 : k2 ≤ runLen dChar s j := by omega
    by_cases hdot : s[j + k2]? = some '.'
    · rw [if_pos hdot] at h3
      obtain ⟨l3, hl3, he, hf, hb⟩ := fPart_some s (j + k2 + 1) e h3
      exact ⟨k2, l3, h1, hl3, by omega, fun k hk =>
        runLen_sat dChar s j k (by omega), hdot, hf, hb⟩
    · rw [if_neg hdot] at h3; simp at h3

theorem dPart_isSome (s : List Char) (j l2 : Nat) (h1 : 1 ≤ l2)
    (hc : ∀ k, k < l2 → charSat dChar s (j + k) = true)
    (hdot : s[j + l2]? = some '.')
    (hf : (fPart s (j + l2 + 1)).isSome = true) :
    (dPart s j).isSome = true := by
  have hdotSat : charSat dChar s (j + l2) = true := by
    simp [charSat, hdot, dChar]
  have hr : l2 + 1 ≤ runLen dChar s j := by
    refine runLen_max dChar s j (l2 + 1) (fun k hk => ?_)
    rcases Nat.lt_or_ge k l2 with h | h
    · exact hc k h
    · have : k = l2 := by omega
      rw [this]; exact hdotSat
  rw [dPart, if_neg (by omega)]
  refine tryFrom_isSome _ 1 (runLen dChar s j - 1) l2 h1 (by omega) ?_
  rw [if_pos hdot]
  exact hf

theorem matchAt_some (s : List Char) (i e : Nat) (h : matchAt s i = some e) :
    specMatchAt s i e := by
  rw [matchAt] at h
  by_cases hb : isBoundary s i = true
  · rw [if_pos hb] at h
    by_cases hr : runLen lpChar s i = 0
    · rw [if_pos hr] at h; simp at h
    · rw [if_neg hr] at h
      by_cases hat : s[i + runLen lpChar s i]? = some '@'
      · rw [if_pos hat] at h
        obtain ⟨l2, l3, h1, h2, he, hd, hdot, hf, hend⟩ :=
          dPart_some s (i + runLen lpChar s i + 1) e h
        have hlast : charSat fChar s
            (i + runLen lpChar s i + 1 + l2 + 1 + (l3 - 1)) = true :=
          hf (l3 - 1) (by omega)
        have hlen : e ≤ s.length := by
          have := charSat_lt_length fChar s _ hlast
          omega
        exact ⟨runLen lpChar s i, l2, l3, by omega, h1, h2, by omega, hlen, hb,
          fun k hk => runLen_sat lpChar s i k hk, hat, hd, hdot, hf, hend⟩
      · rw [if_neg hat] at h; simp at h
  · rw [if_neg hb] at h; simp at h

theorem matchAt_isSome (s : List Char) (i e : Nat) (h : specMatchAt s i e) :
    (matchAt s i).isSome = true := by
  obtain ⟨l1, l2, l3, h1, h2, h3, he, hlen, hb, hlp, hat, hd, hdot, hf, hend⟩ := h
  have hr1le : l1 ≤ runLen lpChar s i := runLen_max lpChar s i l1 hlp
  have hr1ge : runLen lpChar s i ≤ l1 := by
    by_contra hgt
    have hsat : charSat lpChar s (i + l1) = true :=
      runLen_sat lpChar s i l1 (by omega)
    rw [charSat, hat] at hsat
    simp [lpChar, Char.isAlphanum, Char.isAlpha, Char.isDigit, Char.isUpper,
      Char.isLower] at hsat
  have hr1 : runLen lpChar s i = l1 := by omega
  have hfs : (fPart s (i + l1 + 1 + l2 + 1)).isSome = true := by
    refine fPart_isSome s (i + l1 + 1 + l2 + 1) l3 h3
      (fun k hk => hf k hk) ?_
    rw [show i + l1 + 1 + l2 + 1 + l3 = e from by omega]
    exact hend
  have hds : (dPart s (i + l1 + 1)).isSome = true := by
    refine dPart_isSome s (i + l1 + 1) l2 h2 (fun k hk => hd k hk) hdot ?_
    exact hfs
  rw [matchAt, if_pos hb, hr1, if_neg (by omega), if_pos hat]
  exact hds

/-! ## Helper lemmas: the left-to-right search -/

theorem searchAux_some (s : List Char) :
    ∀ (fuel i i0 e0 : Nat), searchAux s i fuel = some (i0, e0) →
      i ≤ i0 ∧ matchAt s i0 = some e0 ∧
        ∀ j, i ≤ j → j < i0 → matchAt s j = none := by
  intro fuel
  induction fuel with
  | zero => intro i i0 e0 h; simp [searchAux] at h
  | succ n ih =>
      intro i i0 e0 h
      rw [searchAux] at h
      cases hm : matchAt s i with
      | some e =>
          simp only [hm] at h
          simp at h
          obtain ⟨hi, hee⟩ := h
          refine ⟨by omega, by rw [← hi, hm, hee], fun j hj1 hj2 => by omega⟩
      | none =>
          simp only [hm] at h
          obtain ⟨hi, hmm, hmin⟩ := ih (i + 1) i0 e0 h
          refine ⟨by omega, hmm, fun j hj1 hj2 => ?_⟩
          rcases Nat.lt_or_ge j (i + 1) with hj | hj
          · have : j = i := by omega
            rw [this]; exact hm
          · exact hmin j hj hj2

theorem searchAux_isSome (s : List Char) :
    ∀ (fuel i j : Nat), i ≤ j → j < i + fuel →
      (matchAt s j).isSome = true → (searchAux s i fuel).isSome = true := by
  intro fuel
  induction fuel with
  | zero => intro i j h1 h2; omega
  | succ n ih =>
      intro i j h1 h2 h3
      rw [searchAux]
      cases hm : matchAt s i with
      | some e => simp
      | none =>
          have hj : i + 1 ≤ j := by
            rcases Nat.lt_or_ge i j with h | h
            · omega
            · have hji : j = i := by omega
              rw [hji, hm] at h3
              simp at h3
          simpa using ih (i + 1) j hj (by omega) h3

/-! ## C6: sender parsing -/

/-- C6: over ASCII input (where the embedded character classes and word
boundary agree with the CPython pattern semantics), the extracted sender
email is a substring matching the address pattern starting at the leftmost
matching start whenever some substring matches, and the raw string itself
when none does; and the extracted sender name is exactly the
specification's three-branch function of the raw string. -/
theorem sender_parsing_spec :
    ∀ s : List Char, (∀ c ∈ s, c.toNat ≤ 127) →
      ((∀ i e, ¬ specMatchAt s i e) → emailAddrChars s = s) ∧
      (∀ i e, specMatchAt s i e →
        ∃ i0 e0, specMatchAt s i0 e0 ∧ i0 ≤ i ∧
          emailAddrChars s = slice s i0 e0) ∧
      senderNameChars s = senderNameSpec s := by
  intro s hA
  refine ⟨?_, ?_, ?_⟩
  · intro hno
    by_cases hs : s = []
    · rw [emailAddrChars, if_pos hs, hs]
    · rw [emailAddrChars, if_neg hs]
      cases hr : reSearch s with
      | none => rfl
      | some p =>
          obtain ⟨i0, e0⟩ := p
          have ⟨_, hm, _⟩ := searchAux_some s (s.length + 1) 0 i0 e0 hr
          exact absurd (matchAt_some s i0 e0 hm) (hno i0 e0)
  · intro i e hspec
    have hi_lt : i < s.length := by
      obtain ⟨l1, _, _, hl1, _, _, _, _, hb, hlp, _⟩ := hspec
      have := charSat_lt_length lpChar s (i + 0) (hlp 0 (by omega))
      omega
    have hne : s ≠ [] := by
      intro h
      rw [h] at hi_lt
      simp at hi_lt
    have hsome : (reSearch s).isSome = true := by
      rw [reSearch]
      exact searchAux_isSome s (s.length + 1) 0 i (by omega) (by omega)
        (matchAt_isSome s i e hspec)
    obtain ⟨p, hr⟩ := Option.isSome_iff_exists.mp hsome
    obtain ⟨i0, e0⟩ := p
    have hr' : searchAux s 0 (s.length + 1) = some (i0, e0) := hr
    have ⟨_, hm0, hmin⟩ := searchAux_some s (s.length + 1) 0 i0 e0 hr'
    refine ⟨i0, e0, matchAt_some s i0 e0 hm0, ?_, ?_⟩
    · by_contra hgt
      have hlt : i < i0 := by omega
      have := hmin i (by omega) hlt
      have hs := matchAt_isSome s i e hspec
      rw [this] at hs
      simp at hs
    · rw [emailAddrChars, if_neg hne, show reSearch s = some (i0, e0) from hr]
  · cases hs : s with
    | nil => simp [senderNameChars, senderNameSpec]
    | cons a t => simp [senderNameChars, senderNameSpec]

/-- C6 witness: on the concrete header string the extracted address is the
leftmost pattern match and the name agrees with the specification
function. -/
theorem sender_parsing_spec_witness :
    (∃ i0 e0, specMatchAt "Jane Doe <jane@example.com>".data i0 e0 ∧ i0 ≤ 10 ∧
      emailAddrChars "Jane Doe <jane@example.com>".data =
        slice "Jane Doe <jane@example.com>".data i0 e0) ∧
    senderNameChars "Jane Doe <jane@example.com>".data =
      senderNameSpec "Jane Doe <jane@example.com>".data := by
  have h := sender_parsing_spec "Jane Doe <jane@example.com>".data (by decide)
  exact ⟨h.2.1 10 26 ⟨4, 7, 3, by decide⟩, h.2.2⟩

end EmailAssistant
